import Mathlib

/-!
Verification of the fairness-debiasing core of UniversalGP.

This file is a shallow embedding, over the real numbers, of the parts of the
repository that the checked properties are about:

* `universalgp/inf/logistic_regression.py` — the baseline `LogReg` model and
  its fair variants `FairLogReg` and `EqOddsLogReg`;
* `universalgp/util/util.py` — `log_cholesky_det` and `vec_to_tri`;
* `universalgp/util/train_helper.py` — `construct_from_flags`.

TensorFlow tensors of real numbers are embedded as functions out of `Fin`
types, and TensorFlow reductions (`reduce_mean`, `reduce_sum`,
`reduce_logsumexp`) as the corresponding exact real-number operations.  Where
IEEE-754 special values matter (the behaviour of `tf.log` on non-positive
inputs) the embedding tracks them explicitly with the `TFVal` type; everywhere
else the claims under consideration are about the algebraic form of the
computation, which the real-number model captures.
-/

namespace UniversalGP

noncomputable section

/-! ### Real-valued primitives used by the TensorFlow code -/

/-- Logistic sigmoid `σ(x) = 1 / (1 + exp (-x))` (`tf.nn.sigmoid`). -/
def sigmoid (x : ℝ) : ℝ := 1 / (1 + Real.exp (-x))

/-- `tfm.log_sigmoid(x)`, computed by TensorFlow as `-softplus(-x)`,
i.e. `-log (1 + exp (-x))`. -/
def log_sigmoid (x : ℝ) : ℝ := -Real.log (1 + Real.exp (-x))

/-- `tf.nn.sigmoid_cross_entropy_with_logits(labels = z, logits = x)`,
computed by TensorFlow with the numerically stable formula
`max(x, 0) - x * z + log (1 + exp (-|x|))`. -/
def sigmoid_cross_entropy_with_logits (z x : ℝ) : ℝ :=
  max x 0 - x * z + Real.log (1 + Real.exp (-|x|))

/-- `tf.reduce_logsumexp` on a 2-vector: the max-shifted log-sum-exp
`max a b + log (exp (a - max a b) + exp (b - max a b))`. -/
def reduce_logsumexp2 (a b : ℝ) : ℝ :=
  max a b + Real.log (Real.exp (a - max a b) + Real.exp (b - max a b))

theorem sigmoid_pos (x : ℝ) : 0 < sigmoid x := by
  unfold sigmoid; positivity

/-- The two sigmoid values at `x` and `-x` sum to one. -/
theorem sigmoid_add_sigmoid_neg (x : ℝ) : sigmoid x + sigmoid (-x) = 1 := by
  have hx : Real.exp x ≠ 0 := (Real.exp_pos x).ne'
  have h1 : (0:ℝ) < 1 + Real.exp (-x) := by positivity
  have h2 : (0:ℝ) < 1 + Real.exp x := by positivity
  unfold sigmoid
  rw [neg_neg, Real.exp_neg]
  rw [Real.exp_neg] at h1
  field_simp
  ring

/-- Exponentiating `log_sigmoid` recovers the sigmoid. -/
theorem exp_log_sigmoid (x : ℝ) : Real.exp (log_sigmoid x) = sigmoid x := by
  have h : (0:ℝ) < 1 + Real.exp (-x) := by positivity
  unfold log_sigmoid sigmoid
  rw [Real.exp_neg, Real.exp_log h, one_div]

/-- The max-shifted log-sum-exp equals the plain log-sum-exp in exact
real arithmetic. -/
theorem reduce_logsumexp2_eq (a b : ℝ) :
    reduce_logsumexp2 a b = Real.log (Real.exp a + Real.exp b) := by
  unfold reduce_logsumexp2
  have h : Real.exp (a - max a b) + Real.exp (b - max a b) =
      (Real.exp a + Real.exp b) / Real.exp (max a b) := by
    rw [Real.exp_sub, Real.exp_sub, div_add_div_same]
  rw [h, Real.log_div (by positivity) (Real.exp_ne_zero _), Real.log_exp]
  ring

/-! ### The logistic regression models (`inf/logistic_regression.py`)

`LogReg` wraps a single `Dense(output_dim)` layer with no activation,
an optional bias, and keras `l2` regularizers on kernel and bias with the
factors `lr_l2_kernel_factor` and `lr_l2_bias_factor`.  The fair variants
squeeze the last axis of the layer output, so the embedding models the
`output_dim = 1` case used throughout the fairness code: the layer is a
weight vector `w`, an optional bias `b`, and the logit of an example `x`
is `⟨w, x⟩ + b`. -/

/-- The `Dense(1)` layer of `LogReg` together with the regularization factors
taken from the flags. -/
structure LRModel (d : ℕ) where
  w : Fin d → ℝ
  b : ℝ
  use_bias : Bool
  l2_kernel_factor : ℝ
  l2_bias_factor : ℝ

/-- One batch as seen by `inference`: `x i` is the input vector of example `i`
after `construct_input` (resolved by the external `inf_vi_ybar` module),
`sensitive i` is `features['sensitive']` squeezed and cast to an integer
group code, and `y i` is `outputs` squeezed and cast (labels lie in {0,1}). -/
structure Batch (n d G : ℕ) where
  x : Fin n → Fin d → ℝ
  sensitive : Fin n → Fin G
  y : Fin n → Fin 2

variable {n d G : ℕ}

/-- Output of the dense layer on one example: `self._model(inputs)`. -/
def LRModel.logit (m : LRModel d) (x : Fin d → ℝ) : ℝ :=
  (∑ j, m.w j * x j) + (if m.use_bias then m.b else 0)

/-- `self._l2_loss()`: `tf.add_n(self._model.losses)`, the keras `l2`
regularization losses of the layer (the bias term exists only when the layer
has a bias). -/
def LRModel.l2Loss (m : LRModel d) : ℝ :=
  m.l2_kernel_factor * (∑ j, (m.w j) ^ 2) +
    (if m.use_bias then m.l2_bias_factor * m.b ^ 2 else 0)

/-- The dictionary `{'loss': …, 'regr_loss': …, 'l2_loss': …}` returned by
the `inference` methods. -/
structure InfResult where
  loss : ℝ
  regr_loss : ℝ
  l2_loss : ℝ

/-- `LogReg.inference` (logistic_regression.py lines 34–42): the plain
loss `-mean(log_cond_prob) + l2`, where
`log_cond_prob = -sigmoid_cross_entropy_with_logits(outputs, logits)`. -/
def LogReg.inference (m : LRModel d) (batch : Batch n d G) : InfResult :=
  let log_cond_prob : Fin n → ℝ := fun i =>
    -sigmoid_cross_entropy_with_logits ((batch.y i : ℕ) : ℝ) (m.logit (batch.x i))
  let regr_loss : ℝ := -((∑ i, log_cond_prob i) / n)
  let l2_loss : ℝ := m.l2Loss
  ⟨regr_loss + l2_loss, regr_loss, l2_loss⟩

/-- The debiasing tensor `log_debias`, indexed `(true label, sensitive group,
observed label)`, produced by `_log_debiasing_parameters` (the functions
`debiasing_params_target_rate` / `debiasing_params_target_tpr` of the external
`inf_vi_ybar` module). -/
abbrev DebiasTensor (G : ℕ) := Fin 2 → Fin G → Fin 2 → ℝ

/-- `FairLogReg.inference` (logistic_regression.py lines 61–84).  When
`is_train` is false it returns `super().inference(...)`, i.e. the plain
`LogReg` loss.  Otherwise it stacks the log-likelihoods of labels 0 and 1,
adds the rows `log_debias[y i, sensitive i, ·]` gathered per example,
reduces with `tf.reduce_logsumexp` over the last axis, and returns the
negative mean plus the l2 loss. -/
def FairLogReg.inference (m : LRModel d) (batch : Batch n d G)
    (log_debias : DebiasTensor G) (is_train : Bool) : InfResult :=
  if is_train = false then LogReg.inference m batch
  else
    let logits : Fin n → ℝ := fun i => m.logit (batch.x i)
    let log_lik : Fin n → Fin 2 → ℝ := fun i k =>
      if k = 0 then log_sigmoid (-logits i) else log_sigmoid (logits i)
    let log_debias_per_example : Fin n → Fin 2 → ℝ := fun i =>
      log_debias (batch.y i) (batch.sensitive i)
    let weighted_log_lik : Fin n → Fin 2 → ℝ := fun i k =>
      log_debias_per_example i k + log_lik i k
    let log_cond_prob : Fin n → ℝ := fun i =>
      reduce_logsumexp2 (weighted_log_lik i 0) (weighted_log_lik i 1)
    let regr_loss : ℝ := -((∑ i, log_cond_prob i) / n)
    let l2_loss : ℝ := m.l2Loss
    ⟨regr_loss + l2_loss, regr_loss, l2_loss⟩

/-- `EqOddsLogReg` (logistic_regression.py lines 90–93) overrides only
`_log_debiasing_parameters` (it uses `debiasing_params_target_tpr` instead of
`debiasing_params_target_rate`); `inference` is inherited from `FairLogReg`,
so it is `FairLogReg.inference` applied to the TPR-based tensor. -/
def EqOddsLogReg.inference (m : LRModel d) (batch : Batch n d G)
    (log_debias_tpr : DebiasTensor G) (is_train : Bool) : InfResult :=
  FairLogReg.inference m batch log_debias_tpr is_train

/-! ### Theorems about the logistic-regression inference methods -/

/-- The training branch of `FairLogReg.inference`, written out: per example
the gathered debias row is added to the stacked log-likelihoods and reduced
with the log-sum-exp; the loss is the negative mean plus the l2 loss. -/
theorem FairLogReg.inference_train (m : LRModel d) (batch : Batch n d G)
    (dp : DebiasTensor G) :
    FairLogReg.inference m batch dp true =
      { loss := -((∑ i, reduce_logsumexp2
              (dp (batch.y i) (batch.sensitive i) 0 + log_sigmoid (-(m.logit (batch.x i))))
              (dp (batch.y i) (batch.sensitive i) 1 + log_sigmoid (m.logit (batch.x i)))) / n)
            + m.l2Loss,
        regr_loss := -((∑ i, reduce_logsumexp2
              (dp (batch.y i) (batch.sensitive i) 0 + log_sigmoid (-(m.logit (batch.x i))))
              (dp (batch.y i) (batch.sensitive i) 1 + log_sigmoid (m.logit (batch.x i)))) / n),
        l2_loss := m.l2Loss } := rfl

/-- The spec's per-example reduction (§4.3 step 3): the two weighted terms
combined by the max-shifted log-sum-exp. -/
def specCombined (w0 w1 : ℝ) : ℝ :=
  max w0 w1 + Real.log (Real.exp (w0 - max w0 w1) + Real.exp (w1 - max w0 w1))

/-- C2: in training mode, `FairLogReg.inference` forms, for each example with
true label `y` and group `s`, the weighted terms
`weighted0 = log_debias[y,s,0] + raw log-likelihood of label 0` and
`weighted1 = log_debias[y,s,1] + raw log-likelihood of label 1`, combines them
with the max-shifted log-sum-exp
`max(weighted0, weighted1) + log (exp (weighted0 - max) + exp (weighted1 - max))`,
and returns as loss the negative mean of the combined values over all examples
plus the (separately computed) l2 regularization term, added on top. -/
theorem fair_inference_train_is_weighted_logsumexp (m : LRModel d)
    (batch : Batch n d G) (dp : DebiasTensor G) :
    FairLogReg.inference m batch dp true =
      { loss := -((∑ i, specCombined
              (dp (batch.y i) (batch.sensitive i) 0 + log_sigmoid (-(m.logit (batch.x i))))
              (dp (batch.y i) (batch.sensitive i) 1 + log_sigmoid (m.logit (batch.x i)))) / n)
            + m.l2Loss,
        regr_loss := -((∑ i, specCombined
              (dp (batch.y i) (batch.sensitive i) 0 + log_sigmoid (-(m.logit (batch.x i))))
              (dp (batch.y i) (batch.sensitive i) 1 + log_sigmoid (m.logit (batch.x i)))) / n),
        l2_loss := m.l2Loss } :=
  FairLogReg.inference_train m batch dp

/-- C10: with `is_train = false`, `FairLogReg.inference` and
`EqOddsLogReg.inference` (which only changes the source of the debias tensor)
return exactly the loss dictionary of the baseline `LogReg.inference` on the
same input, whatever the debias tensors are. -/
theorem fair_and_eqodds_eval_eq_baseline (m : LRModel d) (batch : Batch n d G)
    (dp dp2 : DebiasTensor G) :
    FairLogReg.inference m batch dp false = LogReg.inference m batch ∧
    EqOddsLogReg.inference m batch dp2 false = LogReg.inference m batch :=
  ⟨rfl, rfl⟩

/-- Concrete model for the counterexample to C1: one input dimension, zero
weight, no bias, the default regularization factors 0.1. -/
def m0 : LRModel 1 := ⟨fun _ => 0, 0, false, 1/10, 1/10⟩

/-- Concrete batch for the counterexample to C1: two examples with input 0,
sensitive group 0, and observed label 1. -/
def batch0 : Batch 2 1 1 := ⟨fun _ _ => 0, fun _ => 0, fun _ => 1⟩

/-- The all-zero debiasing tensor. -/
def zeroDebias : DebiasTensor 1 := fun _ _ _ => 0

/-- Helper: with an all-zero debias tensor, every per-example log-sum-exp in
the fair training loss is `log 1 = 0`, so the regression part of the loss
vanishes and the returned loss is the l2 term alone. -/
theorem fair_loss_l2_of_zero_debias (m : LRModel d) (batch : Batch n d G)
    (dp : DebiasTensor G) (hdp : ∀ y s k, dp y s k = 0) :
    (FairLogReg.inference m batch dp true).regr_loss = 0 ∧
    (FairLogReg.inference m batch dp true).loss = m.l2Loss := by
  have hcomb : ∀ i : Fin n,
      reduce_logsumexp2
        (dp (batch.y i) (batch.sensitive i) 0 + log_sigmoid (-(m.logit (batch.x i))))
        (dp (batch.y i) (batch.sensitive i) 1 + log_sigmoid (m.logit (batch.x i))) = 0 := by
    intro i
    rw [hdp, hdp, zero_add, zero_add, reduce_logsumexp2_eq, exp_log_sigmoid,
      exp_log_sigmoid, add_comm, sigmoid_add_sigmoid_neg, Real.log_one]
  rw [FairLogReg.inference_train]
  have hsum : (∑ i, reduce_logsumexp2
      (dp (batch.y i) (batch.sensitive i) 0 + log_sigmoid (-(m.logit (batch.x i))))
      (dp (batch.y i) (batch.sensitive i) 1 + log_sigmoid (m.logit (batch.x i)))) = 0 :=
    Finset.sum_eq_zero fun i _ => hcomb i
  rw [hsum]
  norm_num

/-- `LogReg.inference`, written out. -/
theorem LogReg.inference_def (m : LRModel d) (batch : Batch n d G) :
    LogReg.inference m batch =
      { loss := -((∑ i, -sigmoid_cross_entropy_with_logits ((batch.y i : ℕ) : ℝ)
              (m.logit (batch.x i))) / n) + m.l2Loss,
        regr_loss := -((∑ i, -sigmoid_cross_entropy_with_logits ((batch.y i : ℕ) : ℝ)
              (m.logit (batch.x i))) / n),
        l2_loss := m.l2Loss } := rfl

theorem m0_l2Loss : m0.l2Loss = 0 := by
  simp [m0, LRModel.l2Loss]

theorem m0_logit (x : Fin 1 → ℝ) : m0.logit x = 0 := by
  simp [m0, LRModel.logit]

/-- C1, counterexample: with the all-zero debiasing tensor the fair training
loss does NOT equal the baseline loss.  On `batch0` under `m0` the fair loss
is `0` (the two class likelihoods sum to one, so each log-sum-exp is `log 1`)
while the baseline loss is `log 2 ≠ 0`. -/
theorem zero_debias_ne_baseline :
    (FairLogReg.inference m0 batch0 zeroDebias true).loss ≠
      (LogReg.inference m0 batch0).loss := by
  have hfair : (FairLogReg.inference m0 batch0 zeroDebias true).loss = 0 := by
    rw [(fair_loss_l2_of_zero_debias m0 batch0 zeroDebias (fun _ _ _ => rfl)).2, m0_l2Loss]
  have hce : sigmoid_cross_entropy_with_logits 1 0 = Real.log 2 := by
    unfold sigmoid_cross_entropy_with_logits
    norm_num [Real.exp_zero]
  have hbase : (LogReg.inference m0 batch0).loss = Real.log 2 := by
    rw [LogReg.inference_def]
    have hy : ∀ i : Fin 2, ((batch0.y i : ℕ) : ℝ) = 1 := by
      intro i; norm_num [batch0]
    simp only [m0_logit, hy, hce, m0_l2Loss, Fin.sum_univ_two]
    norm_num
  rw [hfair, hbase]
  exact fun h => absurd h.symm (Real.log_pos one_lt_two).ne'

/-- C1, amended: if the debiasing tensor is all-zero then for every nonempty
training batch the fair regression loss is exactly `0` (because for each
example `exp(weighted0) + exp(weighted1) = σ(-logit) + σ(logit) = 1`), so the
returned loss equals the l2 regularization term alone — not the baseline
negative mean log-likelihood. -/
theorem zero_debias_loss_is_l2_only (m : LRModel d) (batch : Batch n d G)
    (dp : DebiasTensor G) (hdp : ∀ y s k, dp y s k = 0) (_hn : 0 < n) :
    (FairLogReg.inference m batch dp true).regr_loss = 0 ∧
    (FairLogReg.inference m batch dp true).loss = m.l2Loss :=
  fair_loss_l2_of_zero_debias m batch dp hdp

/-- Witness for the amended C1 at a concrete input. -/
theorem zero_debias_loss_is_l2_only_w :
    (FairLogReg.inference m0 batch0 zeroDebias true).regr_loss = 0 ∧
    (FairLogReg.inference m0 batch0 zeroDebias true).loss = m0.l2Loss :=
  zero_debias_loss_is_l2_only m0 batch0 zeroDebias (fun _ _ _ => rfl) (by norm_num)

/-! ### `util/util.py`: `log_cholesky_det`

`log_cholesky_det(chol) = 2 * tf.reduce_sum(tf.log(tf.diag_part(chol)))`.
`tf.log` follows IEEE-754: on a positive argument it returns the real
logarithm, on `0` it returns `-inf`, and on a negative argument it returns
`NaN` — silently, with no exception or diagnostic.  The type `TFVal` tracks
these special values through the subsequent sum and scaling. -/

/-- Value of a TensorFlow scalar op: a finite real, `±inf`, or `NaN`. -/
inductive TFVal where
  | fin (x : ℝ)
  | negInf
  | posInf
  | nan

/-- IEEE-754 addition on `TFVal` (as performed by `tf.reduce_sum`):
`NaN` absorbs everything, opposite infinities give `NaN`, an infinity absorbs
finite values. -/
def TFVal.add : TFVal → TFVal → TFVal
  | .nan, _ => .nan
  | _, .nan => .nan
  | .fin a, .fin b => .fin (a + b)
  | .fin _, .negInf => .negInf
  | .negInf, .fin _ => .negInf
  | .fin _, .posInf => .posInf
  | .posInf, .fin _ => .posInf
  | .negInf, .negInf => .negInf
  | .posInf, .posInf => .posInf
  | .negInf, .posInf => .nan
  | .posInf, .negInf => .nan

/-- Multiplication by the positive constant `2`. -/
def TFVal.double : TFVal → TFVal
  | .fin x => .fin (2 * x)
  | .negInf => .negInf
  | .posInf => .posInf
  | .nan => .nan

/-- `tf.reduce_sum` over a list of values (starting from `0`). -/
def TFVal.sumList (l : List TFVal) : TFVal := l.foldr TFVal.add (TFVal.fin 0)

/-- `tf.log` under IEEE-754 semantics. -/
def tfLog (x : ℝ) : TFVal :=
  if 0 < x then .fin (Real.log x) else if x = 0 then .negInf else .nan

/-- `log_cholesky_det` (util.py lines 34–35):
`2 * tf.reduce_sum(tf.log(tf.diag_part(chol)))`. -/
def log_cholesky_det {k : ℕ} (chol : Matrix (Fin k) (Fin k) ℝ) : TFVal :=
  TFVal.double (TFVal.sumList (List.ofFn fun i => tfLog (chol i i)))

theorem TFVal.add_nan (a : TFVal) : a.add .nan = .nan := by
  cases a <;> rfl

theorem TFVal.nan_add (a : TFVal) : TFVal.add .nan a = .nan := by
  cases a <;> rfl

theorem TFVal.sumList_map_fin (l : List ℝ) :
    TFVal.sumList (l.map TFVal.fin) = TFVal.fin l.sum := by
  induction l with
  | nil => rfl
  | cons a t ih => simp [TFVal.sumList, List.foldr] at ih ⊢; rw [ih]; rfl

theorem TFVal.sumList_nan (l : List TFVal) (h : TFVal.nan ∈ l) :
    TFVal.sumList l = .nan := by
  induction l with
  | nil => cases h
  | cons a t ih =>
    rcases List.mem_cons.mp h with ha | ht
    · show a.add (TFVal.sumList t) = .nan
      rw [← ha, TFVal.nan_add]
    · show a.add (TFVal.sumList t) = .nan
      rw [ih ht, TFVal.add_nan]

/-- A sum of values that are each finite or `-inf` is finite or `-inf`. -/
theorem TFVal.sumList_fin_or_negInf (l : List TFVal)
    (h : ∀ v ∈ l, (∃ r, v = .fin r) ∨ v = .negInf) :
    (∃ r, TFVal.sumList l = .fin r) ∨ TFVal.sumList l = .negInf := by
  induction l with
  | nil => exact .inl ⟨0, rfl⟩
  | cons a t ih =>
    have ht := ih fun v hv => h v (List.mem_cons_of_mem a hv)
    have ha := h a (List.mem_cons_self a t)
    show (∃ r, a.add (TFVal.sumList t) = .fin r) ∨ a.add (TFVal.sumList t) = .negInf
    rcases ha with ⟨r, hr⟩ | hr <;> rcases ht with ⟨s, hs⟩ | hs <;> rw [hr, hs]
    · exact .inl ⟨r + s, rfl⟩
    · exact .inr rfl
    · exact .inr rfl
    · exact .inr rfl

theorem TFVal.sumList_negInf (l : List TFVal)
    (h : ∀ v ∈ l, (∃ r, v = .fin r) ∨ v = .negInf) (hm : TFVal.negInf ∈ l) :
    TFVal.sumList l = .negInf := by
  induction l with
  | nil => cases hm
  | cons a t ih =>
    have ht := fun v hv => h v (List.mem_cons_of_mem a hv)
    show a.add (TFVal.sumList t) = .negInf
    rcases List.mem_cons.mp hm with ha | hmt
    · rcases TFVal.sumList_fin_or_negInf t ht with ⟨s, hs⟩ | hs <;>
        rw [← ha, hs] <;> rfl
    · rcases h a (List.mem_cons_self a t) with ⟨r, hr⟩ | hr <;>
        rw [ih ht hmt, hr] <;> rfl

/-- C6: on a lower-triangular Cholesky factor with strictly positive diagonal,
`log_cholesky_det` returns the finite value
`2 * ∑ log(diagonal entries)` exactly. -/
theorem log_cholesky_det_pos_diag {k : ℕ} (chol : Matrix (Fin k) (Fin k) ℝ)
    (_hlow : ∀ i j, i < j → chol i j = 0) (hpos : ∀ i, 0 < chol i i) :
    log_cholesky_det chol = TFVal.fin (2 * ∑ i, Real.log (chol i i)) := by
  have hdiag : (List.ofFn fun i => tfLog (chol i i)) =
      (List.ofFn fun i => Real.log (chol i i)).map TFVal.fin := by
    rw [List.map_ofFn]
    refine congrArg List.ofFn (funext fun i => ?_)
    simp [tfLog, hpos i, Function.comp]
  unfold log_cholesky_det
  rw [hdiag, TFVal.sumList_map_fin, List.sum_ofFn]
  rfl

/-- Concrete lower-triangular factor with positive diagonal for the witness. -/
def cholGood : Matrix (Fin 2) (Fin 2) ℝ := fun i j => if (j : ℕ) ≤ (i : ℕ) then 1 else 0

/-- Witness for C6 at `cholGood`. -/
theorem log_cholesky_det_pos_diag_w :
    log_cholesky_det cholGood = TFVal.fin (2 * ∑ i, Real.log (cholGood i i)) :=
  log_cholesky_det_pos_diag cholGood
    (fun i j hij => by
      simp only [cholGood, if_neg (by omega : ¬((j : ℕ) ≤ (i : ℕ)))]
      )
    (fun i => by simp [cholGood])

/-- Concrete factor with a negative diagonal entry. -/
def cholNeg : Matrix (Fin 1) (Fin 1) ℝ := fun _ _ => -1

/-- Concrete factor with a zero diagonal entry. -/
def cholZero : Matrix (Fin 1) (Fin 1) ℝ := fun _ _ => 0

/-- C7, counterexample: on the factor with diagonal entry `-1`,
`log_cholesky_det` neither fails nor warns: it silently returns `NaN`
(the embedding is a total function with no error channel, mirroring the code,
which raises nothing). -/
theorem log_cholesky_det_silent_nan : log_cholesky_det cholNeg = TFVal.nan := by
  have h : tfLog (cholNeg 0 0) = .nan := by
    unfold tfLog cholNeg
    norm_num
  unfold log_cholesky_det
  rw [List.ofFn_succ]
  simp only [List.ofFn_zero]
  rw [h]
  rfl

/-- C7, amended: `log_cholesky_det` performs no check and emits no diagnostic
on a non-positive diagonal: if some diagonal entry is negative the result is
silently `NaN`, and if the diagonal is nonnegative with some zero entry the
result is silently `-inf`. -/
theorem log_cholesky_det_nonpos_diag {k : ℕ} (chol : Matrix (Fin k) (Fin k) ℝ) :
    ((∃ i, chol i i < 0) → log_cholesky_det chol = TFVal.nan) ∧
    ((∀ i, 0 ≤ chol i i) → (∃ i, chol i i = 0) →
      log_cholesky_det chol = TFVal.negInf) := by
  constructor
  · rintro ⟨i, hi⟩
    have hnan : TFVal.nan ∈ List.ofFn fun j => tfLog (chol j j) := by
      rw [List.mem_ofFn _ _]
      exact ⟨i, by simp [tfLog, not_lt.mpr hi.le, hi.ne]⟩
    unfold log_cholesky_det
    rw [TFVal.sumList_nan _ hnan]
    rfl
  · rintro hge ⟨i, hi⟩
    have hall : ∀ v ∈ List.ofFn fun j => tfLog (chol j j),
        (∃ r, v = .fin r) ∨ v = .negInf := by
      intro v hv
      rcases (List.mem_ofFn _ _).mp hv with ⟨j, hj⟩
      rcases lt_or_eq_of_le (hge j) with hj0 | hj0
      · exact .inl ⟨Real.log (chol j j), by rw [← hj]; simp [tfLog, hj0]⟩
      · exact .inr (by rw [← hj]; simp [tfLog, ← hj0])
    have hmem : TFVal.negInf ∈ List.ofFn fun j => tfLog (chol j j) := by
      rw [List.mem_ofFn _ _]
      exact ⟨i, by simp [tfLog, hi]⟩
    unfold log_cholesky_det
    rw [TFVal.sumList_negInf _ hall hmem]
    rfl

/-- Witness for the amended C7 at the two concrete factors. -/
theorem log_cholesky_det_nonpos_diag_w :
    log_cholesky_det cholNeg = TFVal.nan ∧
    log_cholesky_det cholZero = TFVal.negInf :=
  ⟨(log_cholesky_det_nonpos_diag cholNeg).1 ⟨0, by norm_num [cholNeg]⟩,
   (log_cholesky_det_nonpos_diag cholZero).2 (fun i => le_refl 0) ⟨0, rfl⟩⟩

/-! ### `util/util.py`: `vec_to_tri`

The module `universalgp/util/util.py` imports only `copy` and
`tensorflow as tf`, yet the body of `vec_to_tri` references the free name
`np` (lines 65 and 67).  In Python a free name inside a function body is
resolved when the function is *called*, against the module's global bindings
(and the builtins, which do not contain `np`); an unresolvable name raises
`NameError`.  The embedding makes this name resolution explicit: the module's
top-level bindings are listed, and `vec_to_tri` first resolves `np`, reaching
its arithmetic only if the lookup succeeds. -/

/-- Python names referenced or bound at the top level of `util.py`. -/
inductive PyName where
  | copy
  | tf
  | np
  | init_list
  | ceil_divide
  | log_cholesky_det
  | diag_mul
  | logsumexp
  | mat_square
  | tri_vec_shape
  | vec_to_tri
  | get_flags
deriving DecidableEq

/-- The global bindings of the module `universalgp/util/util.py`: the two
imports (`import copy`, `import tensorflow as tf`) and the functions the
module itself defines.  `np` is not among them. -/
def utilModuleBindings : List PyName :=
  [.copy, .tf, .init_list, .ceil_divide, .log_cholesky_det, .diag_mul,
   .logsumexp, .mat_square, .tri_vec_shape, .vec_to_tri, .get_flags]

/-- Result of running a Python function: a value, an uncaught `NameError`
for an unresolvable name, or an uncaught `AssertionError`. -/
inductive PyResult (α : Type) where
  | ok (val : α)
  | nameError (missing : PyName)
  | assertionError

/-- Triangular numbers: `triNum N = N * (N + 1) / 2`, the number of entries
in the lower triangle of an `N × N` matrix. -/
def triNum : ℕ → ℕ
  | 0 => 0
  | N + 1 => triNum N + (N + 1)

theorem two_mul_triNum (N : ℕ) : 2 * triNum N = N * (N + 1) := by
  induction N with
  | zero => rfl
  | succ N ih =>
    unfold triNum
    have h : (N + 1) * (N + 1 + 1) = N * (N + 1) + 2 * (N + 1) := by ring
    rw [h, ← ih]
    ring

/-- `np.stack(np.tril_indices(N)).T` as a list of row/column pairs: the
positions of the lower triangle (diagonal included) of an `N × N` matrix, in
row-major order. -/
def trilIndices (N : ℕ) : List (ℕ × ℕ) :=
  (List.range N).flatMap fun i => (List.range (i + 1)).map fun j => (i, j)

/-- `tf.scatter_nd(indices, shape=[N,N], updates)`: entry `(i, j)` of the
result is the sum of the updates whose index equals `(i, j)` (scatter adds on
duplicate indices), and `0` where no index points. -/
def scatter_nd (pairs : List ((ℕ × ℕ) × ℝ)) (p : ℕ × ℕ) : ℝ :=
  ((pairs.filter fun q => q.1 == p).map Prod.snd).sum

/-- The inner `vec_to_tri_vector` of `vec_to_tri`, for one `M`-vector:
scatter the vector entries onto the lower-triangle positions. -/
def vec_to_tri_vector (N : ℕ) (v : List ℝ) : ℕ → ℕ → ℝ :=
  fun i j => scatter_nd ((trilIndices N).zip v) (i, j)

/-- The mathematical content of `vec_to_tri` (util.py lines 64–72), i.e. what
the body computes once the name `np` resolves (the function with the missing
`import numpy as np` supplied): `N = int(floor(0.5 * sqrt(M * 8 + 1) - 0.5))`,
the assertion `N * (N + 1) == 2 * M` that `M` is a triangular number, and the
scatter of each row onto the lower-triangle index list. -/
def vec_to_tri_fixed (D M : ℕ) (vectors : Fin D → Fin M → ℝ) :
    PyResult (Fin D → ℕ → ℕ → ℝ) :=
  let N : ℕ := (Nat.sqrt (8 * M + 1) - 1) / 2
  if N * (N + 1) = 2 * M then
    .ok fun dIdx => vec_to_tri_vector N (List.ofFn (vectors dIdx))
  else .assertionError

/-- `vec_to_tri` (util.py lines 58–72) as it runs: line 64 reads the static
shape, line 65 evaluates `np.floor(0.5 * np.sqrt(M * 8. + 1) - 0.5)` — which
first resolves the name `np` against the module's global bindings — and only
then can the assertion and the scatter execute. -/
def vec_to_tri (D M : ℕ) (vectors : Fin D → Fin M → ℝ) :
    PyResult (Fin D → ℕ → ℕ → ℝ) :=
  if PyName.np ∈ utilModuleBindings then vec_to_tri_fixed D M vectors
  else .nameError .np

/-- C5: every call of `vec_to_tri` fails with `NameError` on `np`: the module
imports only `copy` and `tensorflow`, so the lookup of `np` on line 65 fails
before any matrix is constructed, whatever the argument. -/
theorem vec_to_tri_always_name_error (D M : ℕ) (vectors : Fin D → Fin M → ℝ) :
    vec_to_tri D M vectors = .nameError .np := by
  unfold vec_to_tri
  rw [if_neg (by decide)]

/-- C3, evaluation at a failing input: on the valid triangular-length vector
`[0, 1, 2]` (`M = 3`, `N = 2`) the call raises `NameError` instead of
producing the matrix whose lower triangle the round trip would read back. -/
theorem vec_to_tri_roundtrip_call_fails :
    vec_to_tri 1 3 (fun _ j => (j : ℝ)) = .nameError .np := by
  unfold vec_to_tri
  rw [if_neg (by decide)]

/-- C4, evaluation at a failing input: on a vector of valid triangular length
`M = 6` (`N = 3`) the call raises `NameError` instead of returning the filled
lower-triangular matrix. -/
theorem vec_to_tri_fill_call_fails :
    vec_to_tri 1 6 (fun _ j => (j : ℝ)) = .nameError .np := by
  unfold vec_to_tri
  rw [if_neg (by decide)]

/-- C8, evaluation at a failing input: on a vector of non-triangular length
`M = 2` the call raises `NameError` on line 65, before the triangular-number
assertion on line 66 can run, so no shape error is ever reported. -/
theorem vec_to_tri_bad_length_no_shape_error :
    vec_to_tri 1 2 (fun _ _ => (0 : ℝ)) = .nameError .np := by
  unfold vec_to_tri
  rw [if_neg (by decide)]

/-! #### The intended semantics of `vec_to_tri`

Theorems about `vec_to_tri_fixed`, the body of `vec_to_tri` with the missing
numpy import supplied: the scatter fills the lower triangle row-major and
leaves zeros elsewhere, the vector→matrix→vector round trip is exact, and a
non-triangular length is rejected by the assertion on line 66. -/

theorem trilIndices_succ (N : ℕ) :
    trilIndices (N + 1) =
      trilIndices N ++ (List.range (N + 1)).map fun j => (N, j) := by
  unfold trilIndices
  rw [List.range_succ, List.flatMap_append]
  simp [List.range_succ]

theorem triNum_succ (N : ℕ) : triNum (N + 1) = triNum N + (N + 1) := rfl

theorem trilIndices_length (N : ℕ) : (trilIndices N).length = triNum N := by
  induction N with
  | zero => rfl
  | succ N ih =>
    rw [trilIndices_succ, List.length_append, ih, List.length_map,
      List.length_range, triNum_succ]

theorem mem_trilIndices {N : ℕ} {p : ℕ × ℕ} :
    p ∈ trilIndices N ↔ p.1 < N ∧ p.2 ≤ p.1 := by
  unfold trilIndices
  simp only [List.mem_flatMap, List.mem_map, List.mem_range]
  constructor
  · rintro ⟨i, hi, j, hj, rfl⟩
    exact ⟨hi, by omega⟩
  · rintro ⟨h1, h2⟩
    exact ⟨p.1, h1, p.2, by omega, rfl⟩

theorem triNum_mono {a b : ℕ} (hab : a ≤ b) : triNum a ≤ triNum b := by
  induction hab with
  | refl => exact le_refl _
  | step _ ih => exact le_trans ih (Nat.le_add_right _ _)

/-- A lower-triangle position strictly inside the first `N` rows has a flat
row-major index below `triNum N`. -/
theorem triNum_lt {i j N : ℕ} (hi : i < N) (hj : j ≤ i) :
    triNum i + j < triNum N := by
  have h1 : triNum i + j < triNum (i + 1) := by rw [triNum_succ]; omega
  exact lt_of_lt_of_le h1 (triNum_mono hi)

theorem scatter_nd_append (l₁ l₂ : List ((ℕ × ℕ) × ℝ)) (p : ℕ × ℕ) :
    scatter_nd (l₁ ++ l₂) p = scatter_nd l₁ p + scatter_nd l₂ p := by
  unfold scatter_nd
  rw [List.filter_append, List.map_append, List.sum_append]

theorem scatter_nd_singleton (q : ℕ × ℕ) (x : ℝ) (p : ℕ × ℕ) :
    scatter_nd [(q, x)] p = if q = p then x else 0 := by
  by_cases h : q = p
  · rw [if_pos h]
    simp [scatter_nd, List.filter, h]
  · rw [if_neg h]
    have hb : (q == p) = false := beq_eq_false_iff_ne.mpr h
    simp [scatter_nd, List.filter, hb]

theorem getD_drop (v : List ℝ) (s j : ℕ) :
    (v.drop s).getD j 0 = v.getD (s + j) 0 := by
  simp [List.getD_eq_getElem?_getD, List.getElem?_drop]

theorem getD_take (v : List ℝ) (s j : ℕ) (h : j < s) :
    (v.take s).getD j 0 = v.getD j 0 := by
  simp [List.getD_eq_getElem?_getD, List.getElem?_take_of_lt h]

/-- Scatter of one row of the lower-triangle index list. -/
theorem scatter_row (r m : ℕ) (w : List ℝ) (hw : w.length = m) (i j : ℕ) :
    scatter_nd (((List.range m).map fun t => (r, t)).zip w) (i, j) =
      if i = r ∧ j < m then w.getD j 0 else 0 := by
  induction m generalizing w with
  | zero =>
    simp [scatter_nd]
  | succ m ih =>
    have hd : w.drop m = [w.getD m 0] := by
      apply List.ext_getElem
      · simp [hw]
      · intro k h1 h2
        have hk : k = 0 := by simp at h2; omega
        subst hk
        rw [List.getElem_drop]
        simp only [List.getElem_cons_zero]
        rw [List.getD_eq_getElem?_getD, List.getElem?_eq_getElem (by omega)]
        simp
    conv_lhs =>
      rw [List.range_succ, List.map_append, ← List.take_append_drop m w]
    rw [List.zip_append (by simp [hw]), scatter_nd_append,
      ih (w.take m) (by simp [hw]), hd]
    show _ + scatter_nd [((r, m), w.getD m 0)] (i, j) = _
    rw [scatter_nd_singleton]
    by_cases hir : i = r
    · subst hir
      by_cases hjm : j < m
      · rw [if_pos ⟨rfl, hjm⟩, if_neg (by simp; omega), if_pos ⟨rfl, by omega⟩,
          getD_take _ _ _ hjm, add_zero]
      · by_cases hj : j = m
        · subst hj
          rw [if_neg (by omega), if_pos rfl, if_pos ⟨rfl, by omega⟩, zero_add]
        · rw [if_neg (by omega), if_neg (by simp; omega), if_neg (by omega),
            add_zero]
    · rw [if_neg (by omega), if_neg (by simp; omega),
        if_neg (by omega), add_zero]

/-- Scatter of the full lower-triangle index list: entry `(i, j)` of the
matrix is the flat row-major vector entry `triNum i + j` inside the lower
triangle and `0` everywhere else. -/
theorem scatter_tril (N : ℕ) (v : List ℝ) (h : v.length = triNum N) (i j : ℕ) :
    scatter_nd ((trilIndices N).zip v) (i, j) =
      if i < N ∧ j ≤ i then v.getD (triNum i + j) 0 else 0 := by
  induction N generalizing v with
  | zero =>
    simp [trilIndices, scatter_nd]
  | succ N ih =>
    have htake : (v.take (triNum N)).length = triNum N :=
      List.length_take_of_le (by rw [h, triNum_succ]; omega)
    have hdrop : (v.drop (triNum N)).length = N + 1 := by
      rw [List.length_drop, h, triNum_succ]; omega
    conv_lhs =>
      rw [trilIndices_succ, ← List.take_append_drop (triNum N) v]
    rw [List.zip_append (by rw [trilIndices_length, htake]), scatter_nd_append,
      ih (v.take (triNum N)) htake, scatter_row N (N + 1) _ hdrop]
    by_cases hcase : i < N ∧ j ≤ i
    · rw [if_pos hcase, if_neg (by omega), if_pos (by omega : i < N + 1 ∧ j ≤ i),
        getD_take _ _ _ (triNum_lt hcase.1 hcase.2), add_zero]
    · by_cases hcase2 : i = N ∧ j ≤ N
      · obtain ⟨hiN, hjN⟩ := hcase2
        subst hiN
        rw [if_neg hcase, if_pos ⟨rfl, by omega⟩, if_pos ⟨by omega, hjN⟩,
          getD_drop, zero_add]
      · rw [if_neg hcase, if_neg (by omega), if_neg (by omega), add_zero]

/-- Reading the flat row-major lower-triangle entries of `v` back out along
the lower-triangle index list returns `v`. -/
theorem map_trilIndices_getD (N : ℕ) (v : List ℝ) (h : v.length = triNum N) :
    ((trilIndices N).map fun p => v.getD (triNum p.1 + p.2) 0) = v := by
  induction N generalizing v with
  | zero =>
    rw [List.eq_nil_of_length_eq_zero h]
    rfl
  | succ N ih =>
    have htake : (v.take (triNum N)).length = triNum N :=
      List.length_take_of_le (by rw [h, triNum_succ]; omega)
    have hfirst : ((trilIndices N).map fun p => v.getD (triNum p.1 + p.2) 0) =
        v.take (triNum N) := by
      have hagree : ∀ p ∈ trilIndices N,
          v.getD (triNum p.1 + p.2) 0 =
            (v.take (triNum N)).getD (triNum p.1 + p.2) 0 := by
        intro p hp
        obtain ⟨h1, h2⟩ := mem_trilIndices.mp hp
        rw [getD_take _ _ _ (triNum_lt h1 h2)]
      rw [List.map_congr_left hagree]
      exact ih (v.take (triNum N)) htake
    have hsecond : (((List.range (N + 1)).map fun j => (N, j)).map
        fun p => v.getD (triNum p.1 + p.2) 0) = v.drop (triNum N) := by
      rw [List.map_map]
      apply List.ext_getElem
      · simp [h, triNum_succ]
      · intro k h1 h2
        simp only [List.getElem_map, List.getElem_range, Function.comp]
        rw [← getD_drop]
        rw [List.getD_eq_getElem?_getD, List.getElem?_eq_getElem h2]
        rfl
    rw [trilIndices_succ, List.map_append, hfirst, hsecond,
      List.take_append_drop]

/-- C4's intent, with the numpy import supplied: the scattered matrix holds
`v` row-major in its lower triangle (`entry (i, j) = v[i(i+1)/2 + j]` for
`j ≤ i < N`) and `0` in the strict upper triangle and beyond. -/
theorem vec_to_tri_vector_entries (N : ℕ) (v : List ℝ) (h : v.length = triNum N)
    (i j : ℕ) :
    vec_to_tri_vector N v i j =
      if i < N ∧ j ≤ i then v.getD (triNum i + j) 0 else 0 :=
  scatter_tril N v h i j

/-- Witness for `vec_to_tri_vector_entries` at `N = 2`, `v = [5, 6, 7]`. -/
theorem vec_to_tri_vector_entries_w :
    vec_to_tri_vector 2 [5, 6, 7] 1 0 =
      if 1 < 2 ∧ 0 ≤ 1 then List.getD [(5 : ℝ), 6, 7] (triNum 1 + 0) 0 else 0 :=
  vec_to_tri_vector_entries 2 [5, 6, 7] rfl 1 0

/-- C3's intent, with the numpy import supplied: reading the lower-triangle
entries of the scattered matrix back in row-major order yields the original
vector exactly. -/
theorem vec_to_tri_vector_roundtrip (N : ℕ) (v : List ℝ)
    (h : v.length = triNum N) :
    ((trilIndices N).map fun p => vec_to_tri_vector N v p.1 p.2) = v := by
  have hagree : ∀ p ∈ trilIndices N,
      vec_to_tri_vector N v p.1 p.2 = v.getD (triNum p.1 + p.2) 0 := by
    intro p hp
    obtain ⟨h1, h2⟩ := mem_trilIndices.mp hp
    rw [vec_to_tri_vector_entries N v h, if_pos ⟨h1, h2⟩]
  rw [List.map_congr_left hagree]
  exact map_trilIndices_getD N v h

/-- Witness for `vec_to_tri_vector_roundtrip` at `N = 2`, `v = [5, 6, 7]`. -/
theorem vec_to_tri_vector_roundtrip_w :
    ((trilIndices 2).map fun p => vec_to_tri_vector 2 [5, 6, 7] p.1 p.2) =
      [(5 : ℝ), 6, 7] :=
  vec_to_tri_vector_roundtrip 2 [5, 6, 7] rfl

/-- C8's intent, with the numpy import supplied: a vector whose length is not
a triangular number is rejected by the assertion, whatever `N` line 65
computes. -/
theorem vec_to_tri_fixed_bad_length_asserts (D M : ℕ)
    (vectors : Fin D → Fin M → ℝ) (h : ∀ N, N * (N + 1) ≠ 2 * M) :
    vec_to_tri_fixed D M vectors = .assertionError := by
  unfold vec_to_tri_fixed
  rw [if_neg (h _)]

/-- Witness for `vec_to_tri_fixed_bad_length_asserts` at `M = 2`. -/
theorem vec_to_tri_fixed_bad_length_asserts_w :
    vec_to_tri_fixed 1 2 (fun _ _ => (0 : ℝ)) = .assertionError :=
  vec_to_tri_fixed_bad_length_asserts 1 2 (fun _ _ => 0)
    (fun N => by rcases Nat.lt_or_ge N 2 with h | h
                 · interval_cases N <;> omega
                 · nlinarith)

/-- With the numpy import supplied, a triangular-length vector passes the
assertion: line 65 recovers the dimension `N` from `M = triNum N` (since
`8 * triNum N + 1 = (2N + 1)²`), and the scatter runs. -/
theorem vec_to_tri_fixed_triangular (D N : ℕ)
    (vectors : Fin D → Fin (triNum N) → ℝ) :
    vec_to_tri_fixed D (triNum N) vectors =
      .ok fun dIdx => vec_to_tri_vector N (List.ofFn (vectors dIdx)) := by
  have h2 := two_mul_triNum N
  have h8 : 8 * triNum N + 1 = (2 * N + 1) ^ 2 := by
    calc 8 * triNum N + 1 = 4 * (2 * triNum N) + 1 := by ring
    _ = 4 * (N * (N + 1)) + 1 := by rw [h2]
    _ = (2 * N + 1) ^ 2 := by ring
  have hN : (Nat.sqrt (8 * triNum N + 1) - 1) / 2 = N := by
    rw [h8, Nat.sqrt_eq']
    omega
  simp only [vec_to_tri_fixed, hN]
  rw [if_pos h2.symm]

/-! ### `util/train_helper.py`: `construct_from_flags`

`construct_from_flags` resolves `flags['cov']`, the likelihood name,
`flags['inf']` and `flags['optimizer']` against the `cov` / `lik` / `inf` /
`tf.train` registries and wires the instances together.  The embedding
abstracts the registries: the resolved kernel constructor is a function
producing one fresh instance per instantiation (indexed by instantiation
order, since each of the `output_dim` calls on line 23 creates a distinct
object), and the resolved likelihood, inference and optimizer are given
values.  `input_dim`, `inducing_inputs`, `num_train` and the flag dictionary
are absorbed into these constructors. -/

section TrainHelper

variable {K L GP Opt P : Type}

/-- Line 23: `[getattr(cov, flags['cov'])(input_dim, flags) for _ in
range(output_dim)]` — one kernel instance per output dimension. -/
def cov_func_list (covCtor : ℕ → K) (output_dim : ℕ) : List K :=
  (List.range output_dim).map covCtor

/-- `construct_from_flags` (train_helper.py lines 10–28): builds the kernel
list and the likelihood, concatenates the hyperparameters
(`lik_func.get_params() + sum([k.get_params() for k in cov_func], [])`),
and returns the inference object, the hyperparameters and the optimizer. -/
def construct_from_flags (covCtor : ℕ → K) (likCtor : L)
    (covParams : K → List P) (likParams : L → List P)
    (infCtor : List K → L → GP) (optimizer : Opt) (output_dim : ℕ) :
    GP × List P × Opt :=
  let cov_func : List K := cov_func_list covCtor output_dim
  let lik_func : L := likCtor
  let hyper_params : List P := likParams lik_func ++ (cov_func.map covParams).flatten
  (infCtor cov_func lik_func, hyper_params, optimizer)

/-- C9: `construct_from_flags` instantiates exactly `output_dim` kernel
instances, and the returned hyperparameter list is the likelihood's
parameters followed by the concatenation of every kernel's parameters in
kernel-index order. -/
theorem construct_from_flags_params (covCtor : ℕ → K) (likCtor : L)
    (covParams : K → List P) (likParams : L → List P)
    (infCtor : List K → L → GP) (optimizer : Opt) (output_dim : ℕ) :
    (cov_func_list covCtor output_dim).length = output_dim ∧
    (construct_from_flags covCtor likCtor covParams likParams infCtor
        optimizer output_dim).2.1 =
      likParams likCtor ++
        (List.range output_dim).flatMap fun i => covParams (covCtor i) := by
  constructor
  · simp [cov_func_list]
  · simp only [construct_from_flags, cov_func_list, List.map_map, List.flatMap_def]
    rfl

end TrainHelper

end

end UniversalGP
